import Mathlib

/-!
Verification development for the `pyban` repository: a Kolmogorov-Arnold
Network (KAN) library whose conceptual core is a spline-based
learnable-activation layer with grid refinement and symbolic conversion.

The supplied sources contain the tutorial notebook
`src/tutorials/Example_6_PDE.ipynb` (the training loop, grid-adaptation
schedule and symbolic-fixing usage) and a documentation CI workflow.  The
KAN library itself (`ban.KAN`, the spline basis, `fix_symbolic`,
`refit_to_grid`, `symbolic_formula`) is part of this repository but is not
among the supplied files, so those components are modelled from the
specification; the notebook-level definitions below are translated directly
from the notebook source.

Numbers are embedded as exact rationals (`ℚ`); the floating tolerance of
the specification is realised by exact equalities, which are within every
tolerance.
-/

namespace PyBan

/-- Modelled from the spec: the Cox-de Boor B-spline basis functions of the
Spline Basis Evaluator (spec section 4.1); the library file defining them
is missing from the supplied sources.  `t` is the boundary-extended knot
sequence (strictly increasing, spec section 3), `k` the spline order, `i`
the basis index, `x` the evaluation point.  Order-0 functions are interval
indicators; higher orders follow the Cox-de Boor recursion. -/
def B (t : ℕ → ℚ) : ℕ → ℕ → ℚ → ℚ
  | 0, i, x => if t i ≤ x ∧ x < t (i + 1) then 1 else 0
  | k + 1, i, x =>
      (x - t i) / (t (i + k + 1) - t i) * B t k i x +
        (t (i + k + 2) - x) / (t (i + k + 2) - t (i + 1)) * B t k (i + 1) x

/-- A basis function vanishes strictly left of its first knot. -/
theorem B_left_zero (t : ℕ → ℚ) (ht : Monotone t) (k : ℕ) :
    ∀ (i : ℕ) (x : ℚ), x < t i → B t k i x = 0 := by
  induction k with
  | zero =>
    intro i x hx
    simp only [B]
    exact if_neg fun h => absurd h.1 (not_le.2 hx)
  | succ k ih =>
    intro i x hx
    simp only [B]
    rw [ih i x hx, ih (i + 1) x (lt_of_lt_of_le hx (ht (Nat.le_succ i)))]
    ring

/-- A basis function vanishes at and right of its last knot. -/
theorem B_right_zero (t : ℕ → ℚ) (ht : Monotone t) (k : ℕ) :
    ∀ (i : ℕ) (x : ℚ), t (i + k + 1) ≤ x → B t k i x = 0 := by
  induction k with
  | zero =>
    intro i x hx
    simp only [B]
    exact if_neg fun h => absurd h.2 (not_lt.2 hx)
  | succ k ih =>
    intro i x hx
    have h1 : t (i + k + 1) ≤ x := le_trans (ht (by omega)) hx
    have h2 : t (i + 1 + k + 1) ≤ x := by
      have e : i + 1 + k + 1 = i + (k + 1) + 1 := by omega
      rw [e]; exact hx
    simp only [B]
    rw [ih i x h1, ih (i + 1) x h2]
    ring

/-- One step of the Cox-de Boor recursion, with the right-hand weight
rewritten as `1 -` the shifted left-hand weight (valid because the knots
are strictly increasing, so the denominator is nonzero). -/
theorem B_succ_eq (t : ℕ → ℚ) (ht : StrictMono t) (k i : ℕ) (x : ℚ) :
    B t (k + 1) i x =
      (x - t i) / (t (i + k + 1) - t i) * B t k i x +
        (1 - (x - t (i + 1)) / (t (i + 1 + k + 1) - t (i + 1))) * B t k (i + 1) x := by
  have e1 : i + 1 + k + 1 = i + k + 2 := by omega
  rw [e1]
  have hD : t (i + k + 2) - t (i + 1) ≠ 0 := sub_ne_zero.2 (ne_of_gt (ht (by omega)))
  simp only [B]
  have hw : (t (i + k + 2) - x) / (t (i + k + 2) - t (i + 1)) =
      1 - (x - t (i + 1)) / (t (i + k + 2) - t (i + 1)) := by
    field_simp
  rw [hw]

/-- Partition of unity for the Cox-de Boor basis: on the range covered by
the knots `t (a + k)` to `t (a + n)`, the `n` consecutive order-`k` basis
functions starting at index `a` sum to exactly `1`. -/
theorem B_sum_one (t : ℕ → ℚ) (ht : StrictMono t) :
    ∀ (k a n : ℕ) (x : ℚ), t (a + k) ≤ x → x < t (a + n) →
      ∑ j in Finset.range n, B t k (a + j) x = 1 := by
  intro k
  induction k with
  | zero =>
    intro a n
    induction n with
    | zero =>
      intro x h1 h2
      exact absurd (lt_of_le_of_lt h1 h2) (lt_irrefl _)
    | succ n ihn =>
      intro x h1 h2
      rcases lt_or_le x (t (a + n)) with h | h
      · rw [Finset.sum_range_succ, ihn x h1 h,
          B_left_zero t ht.monotone 0 (a + n) x h, add_zero]
      · rw [Finset.sum_range_succ]
        have hz : ∀ j ∈ Finset.range n, B t 0 (a + j) x = 0 := by
          intro j hj
          exact B_right_zero t ht.monotone 0 (a + j) x
            (le_trans (ht.monotone (by have := Finset.mem_range.1 hj; omega)) h)
        rw [Finset.sum_eq_zero hz, zero_add]
        have hlast : B t 0 (a + n) x = 1 := by
          simp only [B]
          exact if_pos ⟨h, h2⟩
        exact hlast
  | succ k ih =>
    intro a n x h1 h2
    have hF0 : B t k (a + n) x = 0 := B_left_zero t ht.monotone k (a + n) x h2
    have hG0 : B t k a x = 0 := B_right_zero t ht.monotone k a x h1
    have hmain : ∑ j in Finset.range (n + 1), B t k (a + j) x = 1 :=
      ih a (n + 1) x (le_trans (ht.monotone (by omega)) h1)
        (lt_of_lt_of_le h2 (ht.monotone (by omega)))
    have hstep : ∀ j ∈ Finset.range n, B t (k + 1) (a + j) x =
        (x - t (a + j)) / (t (a + j + k + 1) - t (a + j)) * B t k (a + j) x
        + (1 - (x - t (a + (j + 1))) / (t (a + (j + 1) + k + 1) - t (a + (j + 1)))) *
            B t k (a + (j + 1)) x := by
      intro j _
      exact B_succ_eq t ht k (a + j) x
    rw [Finset.sum_congr rfl hstep, Finset.sum_add_distrib]
    have hs2 : ∑ j in Finset.range (n + 1),
        (x - t (a + j)) / (t (a + j + k + 1) - t (a + j)) * B t k (a + j) x =
        (∑ j in Finset.range n,
          (x - t (a + j)) / (t (a + j + k + 1) - t (a + j)) * B t k (a + j) x)
        + (x - t (a + n)) / (t (a + n + k + 1) - t (a + n)) * B t k (a + n) x :=
      Finset.sum_range_succ _ n
    have hs1 : ∑ j in Finset.range (n + 1),
        (1 - (x - t (a + j)) / (t (a + j + k + 1) - t (a + j))) * B t k (a + j) x =
        (∑ j in Finset.range n,
          (1 - (x - t (a + (j + 1))) / (t (a + (j + 1) + k + 1) - t (a + (j + 1)))) *
            B t k (a + (j + 1)) x)
        + (1 - (x - t (a + 0)) / (t (a + 0 + k + 1) - t (a + 0))) * B t k (a + 0) x :=
      Finset.sum_range_succ' _ n
    have hsum : ∑ j in Finset.range (n + 1),
        ((x - t (a + j)) / (t (a + j + k + 1) - t (a + j)) * B t k (a + j) x
          + (1 - (x - t (a + j)) / (t (a + j + k + 1) - t (a + j))) * B t k (a + j) x)
        = ∑ j in Finset.range (n + 1), B t k (a + j) x :=
      Finset.sum_congr rfl (fun j _ => by ring)
    rw [Finset.sum_add_distrib] at hsum
    rw [hF0, mul_zero, add_zero] at hs2
    simp only [Nat.add_zero] at hs1
    rw [hG0, mul_zero, add_zero] at hs1
    linarith [hs1, hs2, hsum, hmain]

/-- Modelled from the spec: the row of all basis-function values at one
input produced by the Spline Basis Evaluator (spec section 4.1). -/
def basisRow (t : ℕ → ℚ) (k : ℕ) (x : ℚ) : ℕ → ℚ := fun i => B t k i x

/-- C4: for every grid (strictly increasing boundary-extended knot sequence
`t`, with `m` basis functions of order `k`, so the covered range is
`[t k, t m)`) and every input in the covered range, the row of basis-function
values sums to 1 (partition of unity; exact over `ℚ`, hence within any
floating tolerance). -/
theorem basisRow_sum_one (t : ℕ → ℚ) (k m : ℕ) (x : ℚ) (ht : StrictMono t)
    (h1 : t k ≤ x) (h2 : x < t m) :
    ∑ i in Finset.range m, basisRow t k x i = 1 := by
  have h := B_sum_one t ht k 0 m x (by simpa using h1) (by simpa using h2)
  simpa [basisRow] using h

/-- The uniform integer knot sequence, used as a concrete grid. -/
def unitKnots : ℕ → ℚ := fun i => (i : ℚ)

theorem unitKnots_mono : StrictMono unitKnots := by
  intro a b h
  simp only [unitKnots]
  exact_mod_cast h

theorem basisRow_sum_one_witness :
    StrictMono unitKnots ∧ unitKnots 2 ≤ 7 / 2 ∧ (7 / 2 : ℚ) < unitKnots 5 ∧
      ∑ i in Finset.range 5, basisRow unitKnots 2 (7 / 2) i = 1 :=
  ⟨unitKnots_mono, by norm_num [unitKnots], by norm_num [unitKnots],
    basisRow_sum_one unitKnots 2 5 (7 / 2) unitKnots_mono
      (by norm_num [unitKnots]) (by norm_num [unitKnots])⟩

/-- Modelled from the spec: the enumerated formula kinds of a Symbolic
Descriptor (spec section 3: "identity, sine, and other supported closed
forms"). -/
inductive SymKind where
  | ident : SymKind
  | sine : SymKind
  | square : SymKind
deriving DecidableEq

/-- Modelled from the spec: a Symbolic Descriptor (spec section 3): formula
kind plus 4 affine parameters (pre-scale `a`, pre-shift `b`, post-scale `c`,
post-shift `d`). -/
structure SymDesc where
  kind : SymKind
  a : ℚ
  b : ℚ
  c : ℚ
  d : ℚ
deriving DecidableEq

/-- Evaluation of a symbolic descriptor.  The closed forms themselves live in
the external math library, so they enter as an interpretation `ι` of the
formula kinds. -/
def SymDesc.evalD (ι : SymKind → ℚ → ℚ) (s : SymDesc) (x : ℚ) : ℚ :=
  s.c * ι s.kind (s.a * x + s.b) + s.d

/-- Modelled from the spec: an Edge Activation (spec section 3): spline order
`k`, `m` spline coefficients over the boundary-extended knot sequence
`knots`, a base-function weight and an optional symbolic descriptor that,
when present, overrides spline evaluation. -/
structure Edge where
  k : ℕ
  m : ℕ
  knots : ℕ → ℚ
  coef : ℕ → ℚ
  baseW : ℚ
  sym : Option SymDesc

instance : Inhabited Edge := ⟨⟨0, 0, fun _ => 0, fun _ => 0, 0, none⟩⟩

/-- The spline part of an edge: contraction of the coefficient vector with
the basis row. -/
def Edge.splineEval (e : Edge) (x : ℚ) : ℚ :=
  ∑ i in Finset.range e.m, e.coef i * B e.knots e.k i x

/-- Modelled from the spec: `evaluate(inputs)` (spec section 4.2): if
symbolic-active, apply the closed form with its affine parameters; else
contract the basis row with the coefficients and add the weighted base
function `base`. -/
def Edge.evaluate (ι : SymKind → ℚ → ℚ) (base : ℚ → ℚ) (e : Edge) (x : ℚ) : ℚ :=
  match e.sym with
  | some s => s.evalD ι x
  | none => e.splineEval x + e.baseW * base x

/-- Modelled from the spec: the evaluation entry point viewed as a fallible
operation; per spec sections 4.1 and 7 it has no failure path: out-of-range
inputs extrapolate via the boundary-extended basis. -/
def Edge.evaluateChecked (ι : SymKind → ℚ → ℚ) (base : ℚ → ℚ) (e : Edge) (x : ℚ) :
    Option ℚ :=
  some (e.evaluate ι base x)

/-- C5: evaluation never fails, even at inputs outside the covered range
`[knots k, knots m]` of the grid: for a spline-active edge the result is
still the contraction with the boundary-extended basis (extrapolation), not
an error. -/
theorem evaluateChecked_total (ι : SymKind → ℚ → ℚ) (base : ℚ → ℚ) (e : Edge)
    (x : ℚ) (hsp : e.sym = none)
    (_hout : x < e.knots e.k ∨ e.knots e.m < x) :
    (e.evaluateChecked ι base x).isSome = true ∧
      e.evaluateChecked ι base x =
        some (∑ i in Finset.range e.m, e.coef i * B e.knots e.k i x + e.baseW * base x) := by
  refine ⟨rfl, ?_⟩
  simp [Edge.evaluateChecked, Edge.evaluate, hsp, Edge.splineEval]

/-- A concrete edge used to witness out-of-range evaluation. -/
def eOutW : Edge :=
  { k := 1, m := 2, knots := unitKnots, coef := fun _ => 1, baseW := 0, sym := none }

theorem evaluateChecked_total_witness :
    eOutW.sym = none ∧
      ((100 : ℚ) < eOutW.knots eOutW.k ∨ eOutW.knots eOutW.m < 100) ∧
      (eOutW.evaluateChecked (fun _ x => x) (fun _ => 0) 100).isSome = true ∧
      eOutW.evaluateChecked (fun _ x => x) (fun _ => 0) 100 =
        some (∑ i in Finset.range eOutW.m,
          eOutW.coef i * B eOutW.knots eOutW.k i 100 + eOutW.baseW * 0) :=
  ⟨rfl, Or.inr (by norm_num [eOutW, unitKnots]),
    evaluateChecked_total (fun _ x => x) (fun _ => 0) eOutW 100 rfl
      (Or.inr (by norm_num [eOutW, unitKnots]))⟩

/-- Modelled from the spec: closed-form linear regression of `y ≈ c * u + d`
for the two post-affine parameters, minimizing the sum of squared residuals
(spec section 4.2, `fix_symbolic`). -/
def linReg (us ys : List ℚ) : ℚ × ℚ :=
  let n : ℚ := us.length
  let su := us.sum
  let sy := ys.sum
  let suu := (us.map fun u => u * u).sum
  let suy := (List.zipWith (fun u y => u * y) us ys).sum
  let den := n * suu - su * su
  let c := (n * suy - su * sy) / den
  let d := (sy - c * su) / n
  (c, d)

/-- Modelled from the spec: the coefficient-of-determination fit-quality
metric (spec section 3, Symbolic Descriptor invariant). -/
def r2Score (ys fits : List ℚ) : ℚ :=
  let n : ℚ := ys.length
  let mean := ys.sum / n
  let sstot := (ys.map fun y => (y - mean) * (y - mean)).sum
  let ssres := (List.zipWith (fun y f => (y - f) * (y - f)) ys fits).sum
  1 - ssres / sstot

/-- Fit of one candidate pre-affine pair `ab`: regress the post-affine
parameters and score the fit. -/
def candFit (ι : SymKind → ℚ → ℚ) (kind : SymKind) (xs ys : List ℚ)
    (ab : ℚ × ℚ) : SymDesc × ℚ :=
  let us := xs.map fun x => ι kind (ab.1 * x + ab.2)
  let cd := linReg us ys
  let fits := us.map fun u => cd.1 * u + cd.2
  (⟨kind, ab.1, ab.2, cd.1, cd.2⟩, r2Score ys fits)

/-- One step of the candidate search: keep the better-scoring fit. -/
def fitStep (ι : SymKind → ℚ → ℚ) (kind : SymKind) (xs ys : List ℚ)
    (best : SymDesc × ℚ) (ab : ℚ × ℚ) : SymDesc × ℚ :=
  let cur := candFit ι kind xs ys ab
  if best.2 < cur.2 then cur else best

/-- Modelled from the spec: the search over the formula kind's
affine-parameter space (spec section 4.2), realised over a finite candidate
mesh `cands` as indicated by the calibration data's bounded search. -/
def bestFit (ι : SymKind → ℚ → ℚ) (kind : SymKind) (xs ys : List ℚ)
    (cands : List (ℚ × ℚ)) : SymDesc × ℚ :=
  cands.foldl (fitStep ι kind xs ys) (candFit ι kind xs ys (cands.headD (1, 0)))

/-- Modelled from the spec: `fix_symbolic(kind)` (spec section 4.2): fit the
affine parameters against sampled (input, current spline output) pairs,
store the resulting descriptor, and report its fit quality; the spline
coefficients remain stored for potential reversal. -/
def fixSymbolic (ι : SymKind → ℚ → ℚ) (cands : List (ℚ × ℚ)) (e : Edge)
    (kind : SymKind) (xs : List ℚ) : Edge × ℚ :=
  let ys := xs.map e.splineEval
  let bf := bestFit ι kind xs ys cands
  ({ e with sym := some bf.1 }, bf.2)

/-- Modelled from the spec: `unfix_symbolic()` (spec section 4.2): clear the
descriptor, reverting to spline evaluation using current coefficients. -/
def unfixSymbolic (e : Edge) : Edge := { e with sym := none }

/-- C2 (amended): on a spline-active edge, `fix_symbolic` followed by
`unfix_symbolic` restores the `evaluate` output exactly at every input, and
the spline coefficients are untouched by the round trip. -/
theorem fix_unfix_roundtrip (ι : SymKind → ℚ → ℚ) (base : ℚ → ℚ)
    (cands : List (ℚ × ℚ)) (e : Edge) (kind : SymKind) (xs : List ℚ) (x : ℚ)
    (hsp : e.sym = none) :
    (unfixSymbolic (fixSymbolic ι cands e kind xs).1).coef = e.coef ∧
      (unfixSymbolic (fixSymbolic ι cands e kind xs).1).evaluate ι base x =
        e.evaluate ι base x := by
  refine ⟨rfl, ?_⟩
  simp [Edge.evaluate, Edge.splineEval, unfixSymbolic, fixSymbolic, hsp]

/-- A concrete symbolic-active edge: its descriptor evaluates to `x + 1`
while its (empty) spline part evaluates to `0`. -/
def eSymC : Edge :=
  { k := 0, m := 0, knots := unitKnots, coef := fun _ => 0, baseW := 0,
    sym := some ⟨SymKind.ident, 1, 0, 1, 1⟩ }

/-- C2 as literally stated ("for every Edge Activation") is false: on an
edge that is already symbolic-active, fixing and then unfixing switches
evaluation to the spline path, which differs from the pre-fix symbolic
output at input `0`. -/
theorem fix_unfix_counterexample :
    (unfixSymbolic
        (fixSymbolic (fun _ x => x) [(1, 0)] eSymC SymKind.ident [0, 1]).1).evaluate
        (fun _ x => x) (fun _ => 0) 0 ≠
      eSymC.evaluate (fun _ x => x) (fun _ => 0) 0 := by
  norm_num [Edge.evaluate, Edge.splineEval, unfixSymbolic, fixSymbolic, eSymC,
    SymDesc.evalD]

theorem fix_unfix_roundtrip_witness :
    eOutW.sym = none ∧
      ((unfixSymbolic
          (fixSymbolic (fun _ x => x) [(1, 0)] eOutW SymKind.ident [0, 1]).1).coef
          = eOutW.coef ∧
        (unfixSymbolic
            (fixSymbolic (fun _ x => x) [(1, 0)] eOutW SymKind.ident [0, 1]).1).evaluate
            (fun _ x => x) (fun _ => 0) 7 =
          eOutW.evaluate (fun _ x => x) (fun _ => 0) 7) :=
  ⟨rfl, fix_unfix_roundtrip (fun _ x => x) (fun _ => 0) [(1, 0)] eOutW
    SymKind.ident [0, 1] 7 rfl⟩

/-- The candidate search always returns a descriptor of the requested kind. -/
theorem foldl_fitStep_kind (ι : SymKind → ℚ → ℚ) (kind : SymKind)
    (xs ys : List ℚ) :
    ∀ (l : List (ℚ × ℚ)) (acc : SymDesc × ℚ), acc.1.kind = kind →
      (l.foldl (fitStep ι kind xs ys) acc).1.kind = kind := by
  intro l
  induction l with
  | nil => intro acc h; exact h
  | cons ab rest ih =>
    intro acc h
    refine ih _ ?_
    simp only [fitStep]
    split
    · rfl
    · exact h

theorem bestFit_kind (ι : SymKind → ℚ → ℚ) (kind : SymKind) (xs ys : List ℚ)
    (cands : List (ℚ × ℚ)) : (bestFit ι kind xs ys cands).1.kind = kind :=
  foldl_fitStep_kind ι kind xs ys cands _ rfl

/-- C7: `fix_symbolic` always stores the fitted descriptor (of the requested
kind) and always reports the computed coefficient of determination,
whatever its value: there is no auto-rejection, and the spline coefficients
remain stored. -/
theorem fixSymbolic_always_stores (ι : SymKind → ℚ → ℚ) (cands : List (ℚ × ℚ))
    (e : Edge) (kind : SymKind) (xs : List ℚ) :
    (fixSymbolic ι cands e kind xs).1.sym =
        some (bestFit ι kind xs (xs.map e.splineEval) cands).1 ∧
      ((fixSymbolic ι cands e kind xs).1.sym.map SymDesc.kind) = some kind ∧
      (fixSymbolic ι cands e kind xs).2 =
        (bestFit ι kind xs (xs.map e.splineEval) cands).2 ∧
      (fixSymbolic ι cands e kind xs).1.coef = e.coef :=
  ⟨rfl, by simp [fixSymbolic, bestFit_kind], rfl, rfl⟩

/-- Modelled from the spec: the basis matrix of the Spline Basis Evaluator
(spec section 4.1): one row per sample input, one column per basis
function. -/
def basisMat (t : ℕ → ℚ) (k m : ℕ) (xs : List ℚ) :
    Matrix (Fin xs.length) (Fin m) ℚ :=
  Matrix.of fun s i => B t k (i : ℕ) (xs.get s)

/-- The vector of values of `f` at the sample inputs. -/
def sampleVec (xs : List ℚ) (f : ℚ → ℚ) : Fin xs.length → ℚ :=
  fun s => f (xs.get s)

/-- Modelled from the spec: the least-squares solve of
`refit_to_grid` (spec section 4.2), realised through the normal equations
`(Aᵀ A) c = Aᵀ y` with the inverse taken via the adjugate. -/
def lstsq {p m : ℕ} (A : Matrix (Fin p) (Fin m) ℚ) (y : Fin p → ℚ) :
    Fin m → ℚ :=
  (((A.transpose * A).det)⁻¹ • (A.transpose * A).adjugate).mulVec
    (A.transpose.mulVec y)

/-- New coefficient vector produced by a grid refit: the least-squares
solution against the sampled current evaluation, padded with `0` beyond the
new coefficient count. -/
def refitCoef (e : Edge) (tn : ℕ → ℚ) (mn : ℕ) (xs : List ℚ) : ℕ → ℚ :=
  fun i =>
    if h : i < mn then
      lstsq (basisMat tn e.k mn xs) (sampleVec xs e.splineEval) ⟨i, h⟩
    else 0

/-- Modelled from the spec: `refit_to_grid(new_grid, sample_inputs)` (spec
section 4.2): sample the current evaluation at the sample inputs and solve a
least-squares problem for new coefficients on the new grid's basis. -/
def refit (e : Edge) (tn : ℕ → ℚ) (mn : ℕ) (xs : List ℚ) : Edge :=
  { e with knots := tn, m := mn, coef := refitCoef e tn mn xs }

/-- Clamp a value to the numerical bounds `[-bound, bound]`. -/
def clampQ (bound v : ℚ) : ℚ := max (-bound) (min bound v)

/-- Modelled from the spec: the reporting wrapper of `refit_to_grid` (spec
sections 4.2 and 7): when the least-squares solution requires clipping to
the numerical bounds (the "best value at boundary" condition) a fit-quality
warning flag is raised, but the operation still completes and never raises
an error. -/
def refitChecked (bound : ℚ) (e : Edge) (tn : ℕ → ℚ) (mn : ℕ) (xs : List ℚ) :
    Except String (Edge × Bool) :=
  let c := refitCoef e tn mn xs
  let warn := (List.range mn).any fun i => decide (bound < |c i|)
  Except.ok
    ({ e with knots := tn, m := mn, coef := fun i => clampQ bound (c i) }, warn)

/-- C6: the checked refit always completes with `Except.ok`; the warning
flag is raised exactly when the least-squares solution escapes the numerical
bounds (and even then no error is raised and the refit result is
returned). -/
theorem refitChecked_never_fails (bound : ℚ) (e : Edge) (tn : ℕ → ℚ) (mn : ℕ)
    (xs : List ℚ) :
    ∃ e' warn, refitChecked bound e tn mn xs = Except.ok (e', warn) ∧
      (warn = true ↔ ∃ i ∈ Finset.range mn,
        bound < |refitCoef e tn mn xs i|) ∧
      e'.m = mn := by
  refine ⟨_, _, rfl, ?_, rfl⟩
  simp [List.any_eq_true, List.mem_range, Finset.mem_range,
    decide_eq_true_eq]

/-- If the target is exactly representable and the Gram matrix is
nonsingular, the least-squares solution reproduces the target exactly. -/
theorem lstsq_exact {p m : ℕ} (A : Matrix (Fin p) (Fin m) ℚ) (y : Fin p → ℚ)
    (hdet : (A.transpose * A).det ≠ 0) (c₀ : Fin m → ℚ)
    (h : A.mulVec c₀ = y) : A.mulVec (lstsq A y) = y := by
  subst h
  have key : (((A.transpose * A).det)⁻¹ • (A.transpose * A).adjugate) *
      (A.transpose * A) = 1 := by
    rw [Matrix.smul_mul, Matrix.adjugate_mul, smul_smul,
      inv_mul_cancel₀ hdet, one_smul]
  have h2 : lstsq A (A.mulVec c₀) = c₀ := by
    unfold lstsq
    rw [Matrix.mulVec_mulVec c₀ A.transpose A,
      Matrix.mulVec_mulVec c₀ (((A.transpose * A).det)⁻¹ •
        (A.transpose * A).adjugate) (A.transpose * A),
      key, Matrix.one_mulVec]
  rw [h2]

/-- The spline value of a refitted edge at a sample point, written as a
matrix-vector product of the new basis matrix with the least-squares
solution. -/
theorem refit_splineEval (e : Edge) (tn : ℕ → ℚ) (mn : ℕ) (xs : List ℚ)
    (s : Fin xs.length) :
    (refit e tn mn xs).splineEval (xs.get s) =
      (basisMat tn e.k mn xs).mulVec
        (lstsq (basisMat tn e.k mn xs) (sampleVec xs e.splineEval)) s := by
  simp only [Edge.splineEval, refit, refitCoef, Matrix.mulVec, Matrix.dotProduct]
  rw [← Fin.sum_univ_eq_sum_range]
  refine Finset.sum_congr rfl ?_
  intro i _
  rw [dif_pos i.isLt, mul_comm]
  simp [basisMat]

/-- C1: a grid refit followed by evaluation at the original sample inputs
reproduces the pre-refit evaluations exactly (hence within any tolerance),
provided the new grid's normal equations are nonsingular and the sampled
pre-refit values are exactly representable on the new grid's basis — the
formal content of "the new grid has resolution ≥ the old grid" (nested
spline spaces preserve the function shape at the sampled points). -/
theorem refit_roundtrip (ι : SymKind → ℚ → ℚ) (base : ℚ → ℚ) (e : Edge)
    (tn : ℕ → ℚ) (mn : ℕ) (xs : List ℚ)
    (hdet : ((basisMat tn e.k mn xs).transpose * basisMat tn e.k mn xs).det ≠ 0)
    (hrep : ∃ c₀, (basisMat tn e.k mn xs).mulVec c₀ =
      sampleVec xs e.splineEval)
    (s : Fin xs.length) :
    (refit e tn mn xs).evaluate ι base (xs.get s) =
      e.evaluate ι base (xs.get s) := by
  obtain ⟨c₀, hc⟩ := hrep
  have hexact := lstsq_exact _ _ hdet c₀ hc
  have hsp := refit_splineEval e tn mn xs s
  cases hsym : e.sym with
  | some sdesc =>
    simp [Edge.evaluate, refit, hsym]
  | none =>
    have h1 : (refit e tn mn xs).sym = none := hsym
    have hv := congrFun hexact s
    simp only [Edge.evaluate, h1, hsym]
    rw [hsp, hv]
    rfl

/-- A concrete spline-active edge used to witness the refit round trip. -/
def eRefitW : Edge :=
  { k := 0, m := 1, knots := unitKnots, coef := fun _ => 1, baseW := 0,
    sym := none }

/-- The concrete sample-input list of the refit witness. -/
def xsW : List ℚ := [1 / 2]

/-- The single sample index of the refit witness. -/
def sW : Fin xsW.length := ⟨0, by norm_num [xsW]⟩

theorem refit_roundtrip_witness :
    (((basisMat unitKnots eRefitW.k 1 xsW).transpose *
        basisMat unitKnots eRefitW.k 1 xsW).det ≠ 0) ∧
      ((basisMat unitKnots eRefitW.k 1 xsW).mulVec (fun _ => 1) =
        sampleVec xsW eRefitW.splineEval) ∧
      (refit eRefitW unitKnots 1 xsW).evaluate (fun _ x => x) (fun _ => 0)
          (xsW.get sW) =
        eRefitW.evaluate (fun _ x => x) (fun _ => 0) (xsW.get sW) := by
  have hget : ∀ s : Fin xsW.length, xsW.get s = 1 / 2 := by
    intro s
    obtain ⟨v, hv⟩ := s
    have hv0 : v = 0 := by
      simp only [xsW, List.length_cons, List.length_nil] at hv
      omega
    subst hv0
    rfl
  have hB : B unitKnots 0 0 (1 / 2) = 1 := by
    simp only [B, unitKnots]
    norm_num
  have hent : ∀ (s : Fin xsW.length) (i : Fin 1),
      basisMat unitKnots eRefitW.k 1 xsW s i = 1 := by
    intro s i
    show B unitKnots eRefitW.k (i : ℕ) (xsW.get s) = 1
    rw [hget s]
    have hi : (i : ℕ) = 0 := by omega
    rw [hi]
    exact hB
  have hdet : ((basisMat unitKnots eRefitW.k 1 xsW).transpose *
      basisMat unitKnots eRefitW.k 1 xsW).det ≠ 0 := by
    rw [Matrix.det_fin_one, Matrix.mul_apply]
    have hterm : ∀ j ∈ (Finset.univ : Finset (Fin xsW.length)),
        (basisMat unitKnots eRefitW.k 1 xsW).transpose 0 j *
          basisMat unitKnots eRefitW.k 1 xsW j 0 = 1 := by
      intro j _
      rw [Matrix.transpose_apply, hent j 0]
      norm_num
    rw [Finset.sum_congr rfl hterm, Finset.sum_const, Finset.card_univ,
      Fintype.card_fin]
    norm_num [xsW]
  have hrep : (basisMat unitKnots eRefitW.k 1 xsW).mulVec (fun _ => 1) =
      sampleVec xsW eRefitW.splineEval := by
    funext s
    have hv : sampleVec xsW eRefitW.splineEval s = 1 := by
      show eRefitW.splineEval (xsW.get s) = 1
      rw [hget s]
      simp only [Edge.splineEval, eRefitW, Finset.sum_range_one]
      simpa using hB
    rw [hv]
    simp [Matrix.mulVec, Matrix.dotProduct, hent]
  exact ⟨hdet, hrep,
    refit_roundtrip (fun _ x => x) (fun _ => 0) eRefitW unitKnots 1 xsW hdet
      ⟨fun _ => 1, hrep⟩ sW⟩

/-- Modelled from the spec: the closed-form expressions returned by
`symbolic_formula()` (spec sections 4.5 and 6): input variables, rational
literals, sums, products and applications of the supported formula kinds. -/
inductive Expr where
  | var : ℕ → Expr
  | lit : ℚ → Expr
  | add : Expr → Expr → Expr
  | mul : Expr → Expr → Expr
  | call : SymKind → Expr → Expr

/-- Evaluation of a formula under an interpretation `ι` of the formula
kinds and an assignment `env` of the input variables. -/
def Expr.evalQ (ι : SymKind → ℚ → ℚ) (env : ℕ → ℚ) : Expr → ℚ
  | .var i => env i
  | .lit q => q
  | .add f g => f.evalQ ι env + g.evalQ ι env
  | .mul f g => f.evalQ ι env * g.evalQ ι env
  | .call kind f => ι kind (f.evalQ ι env)

/-- The set of input variables referenced by a formula. -/
def Expr.vars : Expr → Finset ℕ
  | .var i => {i}
  | .lit _ => ∅
  | .add f g => f.vars ∪ g.vars
  | .mul f g => f.vars ∪ g.vars
  | .call _ f => f.vars

/-- The formula of one symbolic descriptor applied to an argument formula:
`c * kind (a * arg + b) + d`. -/
def symE (s : SymDesc) (arg : Expr) : Expr :=
  .add (.mul (.lit s.c) (.call s.kind (.add (.mul (.lit s.a) arg) (.lit s.b))))
    (.lit s.d)

/-- The formula contributed by one edge: its symbolic descriptor applied to
the argument (a fully symbolic network has no other case; the `none` arm is
never reached under the symbolic guard). -/
def edgeE (e : Edge) (arg : Expr) : Expr :=
  match e.sym with
  | some s => symE s arg
  | none => .lit 0

/-- Sum of a list of formulas. -/
def sumE (l : List Expr) : Expr := l.foldr .add (.lit 0)

/-- Modelled from the spec: one KAN Layer (spec section 4.3): an
`inDim × outDim` collection of Edge Activations. -/
structure KLayer where
  inDim : ℕ
  outDim : ℕ
  edge : ℕ → ℕ → Edge

instance : Inhabited KLayer := ⟨⟨0, 0, fun _ _ => default⟩⟩

/-- Modelled from the spec: the layer forward map (spec section 4.3): each
output component is the sum over input components of the edge evaluations;
components beyond `outDim` are `0` (the output vector has `outDim`
entries). -/
def layerForward (ι : SymKind → ℚ → ℚ) (base : ℚ → ℚ) (L : KLayer)
    (x : ℕ → ℚ) : ℕ → ℚ :=
  fun j =>
    if j < L.outDim then
      ∑ i in Finset.range L.inDim, (L.edge i j).evaluate ι base (x i)
    else 0

/-- Modelled from the spec: the network forward pass (spec section 2):
successive KAN Layers. -/
def netForward (ι : SymKind → ℚ → ℚ) (base : ℚ → ℚ) :
    List KLayer → (ℕ → ℚ) → (ℕ → ℚ)
  | [], x => x
  | L :: ls, x => netForward ι base ls (layerForward ι base L x)

/-- Every edge of the layer is symbolic-active. -/
def layerSymbolic (L : KLayer) : Prop :=
  ∀ i < L.inDim, ∀ j < L.outDim, (L.edge i j).sym.isSome = true

instance : DecidablePred layerSymbolic := fun L => by
  unfold layerSymbolic
  infer_instance

/-- Every edge of the network is symbolic-active (the terminal state of the
Symbolic Extractor, spec section 4.5). -/
def allSymbolic (net : List KLayer) : Prop := ∀ L ∈ net, layerSymbolic L

instance (net : List KLayer) : Decidable (allSymbolic net) := by
  unfold allSymbolic
  exact List.decidableBAll _ net

/-- The formulas of one layer's outputs, given formulas for its inputs;
`none` when some edge is not symbolic. -/
def layerFormulas (L : KLayer) (ins : List Expr) : Option (List Expr) :=
  if layerSymbolic L then
    some ((List.range L.outDim).map fun j =>
      sumE ((List.range L.inDim).map fun i =>
        edgeE (L.edge i j) (ins.getD i (.lit 0))))
  else none

/-- Layer-by-layer substitution of formulas through the network. -/
def formulasAux : List KLayer → List Expr → Option (List Expr)
  | [], ins => some ins
  | L :: ls, ins => (layerFormulas L ins).bind fun outs => formulasAux ls outs

/-- The declared number of network inputs: the first layer's input
dimension. -/
def netInDim (net : List KLayer) : ℕ := (net.headD default).inDim

/-- The number of output nodes after threading an `n`-vector through the
layers. -/
def netOutsLen : List KLayer → ℕ → ℕ
  | [], n => n
  | L :: ls, _ => netOutsLen ls L.outDim

/-- The number of network output nodes. -/
def netOutDim (net : List KLayer) : ℕ := netOutsLen net (netInDim net)

/-- Modelled from the spec: `symbolic_formula()` (spec sections 4.5 and 6):
compose the whole-network closed form by substituting each layer's symbolic
edges into the next, starting from the declared input variables; one
formula per output node. -/
def symbolicFormula (net : List KLayer) : Option (List Expr) :=
  formulasAux net ((List.range (netInDim net)).map Expr.var)

theorem getD_map_range {α : Type} (F : ℕ → α) (d : α) (n j : ℕ) :
    ((List.range n).map F).getD j d = if j < n then F j else d := by
  by_cases h : j < n
  · have hlen : j < ((List.range n).map F).length := by
      simpa using h
    rw [if_pos h, List.getD_eq_getElem _ _ hlen]
    simp
  · rw [if_neg h, List.getD_eq_default]
    simpa using Nat.not_lt.1 h

theorem symE_evalQ (ι : SymKind → ℚ → ℚ) (env : ℕ → ℚ) (s : SymDesc)
    (arg : Expr) :
    (symE s arg).evalQ ι env = s.evalD ι (arg.evalQ ι env) := rfl

theorem symE_vars (s : SymDesc) (arg : Expr) : (symE s arg).vars = arg.vars := by
  simp [symE, Expr.vars]

theorem edgeE_vars (e : Edge) (arg : Expr) : (edgeE e arg).vars ⊆ arg.vars := by
  unfold edgeE
  cases e.sym with
  | some s => rw [symE_vars]
  | none => simp [Expr.vars]

theorem sumE_evalQ (ι : SymKind → ℚ → ℚ) (env : ℕ → ℚ) :
    ∀ l : List Expr, (sumE l).evalQ ι env = (l.map (Expr.evalQ ι env)).sum := by
  intro l
  induction l with
  | nil => rfl
  | cons a t ih =>
    simp only [sumE, List.foldr_cons, List.map_cons, List.sum_cons] at *
    simp only [Expr.evalQ]
    rw [ih]

theorem sumE_vars_subset (V : Finset ℕ) :
    ∀ l : List Expr, (∀ g ∈ l, Expr.vars g ⊆ V) → (sumE l).vars ⊆ V := by
  intro l
  induction l with
  | nil =>
    intro _
    simp [sumE, Expr.vars]
  | cons a t ih =>
    intro h
    simp only [sumE, List.foldr_cons]
    show (Expr.add a (sumE t)).vars ⊆ V
    simp only [Expr.vars]
    exact Finset.union_subset (h a (List.mem_cons_self a t))
      (ih fun g hg => h g (List.mem_cons_of_mem a hg))

theorem listSum_map_range (f : ℕ → ℚ) :
    ∀ n, ((List.range n).map f).sum = ∑ i in Finset.range n, f i := by
  intro n
  induction n with
  | zero => rfl
  | succ n ih =>
    rw [List.range_succ, List.map_append, List.sum_append,
      Finset.sum_range_succ, ih]
    simp

theorem getD_vars_subset (V : Finset ℕ) (ins : List Expr)
    (hv : ∀ g ∈ ins, Expr.vars g ⊆ V) (i : ℕ) :
    (ins.getD i (.lit 0)).vars ⊆ V := by
  by_cases h : i < ins.length
  · rw [List.getD_eq_getElem _ _ h]
    exact hv _ (List.getElem_mem h)
  · rw [List.getD_eq_default _ _ (Nat.not_lt.1 h)]
    simp [Expr.vars]

theorem layerFormulas_spec (ι : SymKind → ℚ → ℚ) (base : ℚ → ℚ) (L : KLayer)
    (ins : List Expr) (env x : ℕ → ℚ) (V : Finset ℕ)
    (hL : layerSymbolic L)
    (hins : ∀ i, (ins.getD i (.lit 0)).evalQ ι env = x i)
    (hv : ∀ g ∈ ins, Expr.vars g ⊆ V) :
    ∃ outs, layerFormulas L ins = some outs ∧
      outs.length = L.outDim ∧
      (∀ f ∈ outs, f.vars ⊆ V) ∧
      (∀ j, (outs.getD j (.lit 0)).evalQ ι env = layerForward ι base L x j) := by
  refine ⟨_, by rw [layerFormulas, if_pos hL], by simp, ?_, ?_⟩
  · intro f hf
    obtain ⟨j, _, rfl⟩ := List.mem_map.1 hf
    refine sumE_vars_subset V _ ?_
    intro g hg
    obtain ⟨i, _, rfl⟩ := List.mem_map.1 hg
    exact subset_trans (edgeE_vars _ _) (getD_vars_subset V ins hv i)
  · intro j
    rw [getD_map_range]
    by_cases hj : j < L.outDim
    · rw [if_pos hj]
      rw [sumE_evalQ, List.map_map]
      have hterm : ∀ i ∈ Finset.range L.inDim,
          (Expr.evalQ ι env ∘ fun i =>
            edgeE (L.edge i j) (ins.getD i (.lit 0))) i =
            (L.edge i j).evaluate ι base (x i) := by
        intro i hi
        have hi' : i < L.inDim := Finset.mem_range.1 hi
        obtain ⟨s, hs⟩ := Option.isSome_iff_exists.1 (hL i hi' j hj)
        show (edgeE (L.edge i j) (ins.getD i (.lit 0))).evalQ ι env = _
        rw [edgeE, hs]
        show (symE s (ins.getD i (.lit 0))).evalQ ι env = _
        rw [symE_evalQ, hins i, Edge.evaluate, hs]
      rw [listSum_map_range, Finset.sum_congr rfl hterm, layerForward,
        if_pos hj]
    · rw [if_neg hj]
      show (Expr.lit 0).evalQ ι env = _
      rw [layerForward, if_neg hj]
      rfl

theorem formulasAux_spec (ι : SymKind → ℚ → ℚ) (base : ℚ → ℚ) (env : ℕ → ℚ) :
    ∀ (net : List KLayer) (ins : List Expr) (x : ℕ → ℚ) (V : Finset ℕ),
      allSymbolic net →
      (∀ i, (ins.getD i (.lit 0)).evalQ ι env = x i) →
      (∀ g ∈ ins, Expr.vars g ⊆ V) →
      ∃ outs, formulasAux net ins = some outs ∧
        outs.length = netOutsLen net ins.length ∧
        (∀ f ∈ outs, f.vars ⊆ V) ∧
        (∀ j, (outs.getD j (.lit 0)).evalQ ι env = netForward ι base net x j) := by
  intro net
  induction net with
  | nil =>
    intro ins x V _ hins hv
    exact ⟨ins, rfl, rfl, hv, hins⟩
  | cons L ls ih =>
    intro ins x V hall hins hv
    have hL : layerSymbolic L := hall L (List.mem_cons_self L ls)
    obtain ⟨mids, hm, hmlen, hmv, hmval⟩ :=
      layerFormulas_spec ι base L ins env x V hL hins hv
    obtain ⟨outs, ho, holen, hov, hoval⟩ :=
      ih mids (layerForward ι base L x) V
        (fun L' h => hall L' (List.mem_cons_of_mem L h)) hmval hmv
    refine ⟨outs, ?_, ?_, hov, hoval⟩
    · show (layerFormulas L ins).bind (fun outs => formulasAux ls outs) = some outs
      rw [hm]
      exact ho
    · rw [holen, hmlen]
      rfl

theorem netForward_agree (ι : SymKind → ℚ → ℚ) (base : ℚ → ℚ) (L : KLayer)
    (ls : List KLayer) (x y : ℕ → ℚ) (hxy : ∀ i < L.inDim, x i = y i) :
    netForward ι base (L :: ls) x = netForward ι base (L :: ls) y := by
  show netForward ι base ls (layerForward ι base L x) =
    netForward ι base ls (layerForward ι base L y)
  have h : layerForward ι base L x = layerForward ι base L y := by
    funext j
    unfold layerForward
    by_cases hj : j < L.outDim
    · rw [if_pos hj, if_pos hj]
      refine Finset.sum_congr rfl ?_
      intro i hi
      rw [hxy i (Finset.mem_range.1 hi)]
    · rw [if_neg hj, if_neg hj]
  rw [h]

/-- C3: on a fully symbolic network, `symbolic_formula()` returns exactly
one closed-form formula per output node, each referencing only the declared
input variables, and for every input the value of the `j`-th formula equals
the `j`-th component of `forward` at that input (exactly, hence within any
tolerance). -/
theorem symbolicFormula_correct (ι : SymKind → ℚ → ℚ) (base : ℚ → ℚ)
    (net : List KLayer) (h : allSymbolic net) :
    ∃ fs, symbolicFormula net = some fs ∧
      fs.length = netOutDim net ∧
      (∀ f ∈ fs, f.vars ⊆ Finset.range (netInDim net)) ∧
      (∀ x : ℕ → ℚ, ∀ j < fs.length,
        (fs.getD j (.lit 0)).evalQ ι x = netForward ι base net x j) := by
  classical
  obtain ⟨fs, hfs, hlen, hvars, hval⟩ :
      ∃ fs, symbolicFormula net = some fs ∧
        fs.length = netOutDim net ∧
        (∀ f ∈ fs, f.vars ⊆ Finset.range (netInDim net)) ∧
        (∀ x : ℕ → ℚ, ∀ j,
          (fs.getD j (.lit 0)).evalQ ι x =
            netForward ι base net
              (fun i => if i < netInDim net then x i else 0) j) := by
    have hbase : ∀ x : ℕ → ℚ,
        ∃ fs, formulasAux net ((List.range (netInDim net)).map Expr.var) = some fs ∧
          fs.length = netOutsLen net (netInDim net) ∧
          (∀ f ∈ fs, f.vars ⊆ Finset.range (netInDim net)) ∧
          (∀ j, (fs.getD j (.lit 0)).evalQ ι x =
            netForward ι base net
              (fun i => if i < netInDim net then x i else 0) j) := by
      intro x
      have hins : ∀ i,
          ((((List.range (netInDim net)).map Expr.var).getD i (.lit 0)).evalQ ι x)
            = (fun i => if i < netInDim net then x i else 0) i := by
        intro i
        rw [getD_map_range]
        show Expr.evalQ ι x (if i < netInDim net then Expr.var i else Expr.lit 0)
          = if i < netInDim net then x i else 0
        by_cases hi : i < netInDim net
        · rw [if_pos hi, if_pos hi]
          rfl
        · rw [if_neg hi, if_neg hi]
          rfl
      have hv : ∀ g ∈ (List.range (netInDim net)).map Expr.var,
          Expr.vars g ⊆ Finset.range (netInDim net) := by
        intro g hg
        obtain ⟨i, hi, rfl⟩ := List.mem_map.1 hg
        intro v hvv
        simp only [Expr.vars, Finset.mem_singleton] at hvv
        subst hvv
        exact Finset.mem_range.2 (List.mem_range.1 hi)
      obtain ⟨fs, h1, h2, h3, h4⟩ := formulasAux_spec ι base x net
        ((List.range (netInDim net)).map Expr.var)
        (fun i => if i < netInDim net then x i else 0)
        (Finset.range (netInDim net)) h hins hv
      exact ⟨fs, h1, by simpa using h2, h3, h4⟩
    obtain ⟨fs, hfs, hlen, hvars, _⟩ := hbase (fun _ => 0)
    refine ⟨fs, hfs, hlen, hvars, ?_⟩
    intro x j
    obtain ⟨fs', hfs', _, _, hval'⟩ := hbase x
    rw [hfs'] at hfs
    cases hfs
    exact hval' j
  refine ⟨fs, hfs, hlen, hvars, ?_⟩
  intro x j hj
  rw [hval x j]
  cases net with
  | nil =>
    have hj' : j < netInDim ([] : List KLayer) := by
      rw [hlen] at hj
      exact hj
    show (if j < netInDim ([] : List KLayer) then x j else 0) = x j
    exact if_pos hj'
  | cons L ls =>
    have hxy : ∀ i < L.inDim,
        (fun i => if i < netInDim (L :: ls) then x i else 0) i = x i := by
      intro i hi
      show (if i < netInDim (L :: ls) then x i else 0) = x i
      exact if_pos hi
    rw [netForward_agree ι base L ls
      (fun i => if i < netInDim (L :: ls) then x i else 0) x hxy]

/-- A concrete fully symbolic one-layer network. -/
def net0 : List KLayer := [⟨1, 1, fun _ _ => eSymC⟩]

theorem symbolicFormula_correct_witness :
    allSymbolic net0 ∧
      (∃ fs, symbolicFormula net0 = some fs ∧
        fs.length = netOutDim net0 ∧
        (∀ f ∈ fs, f.vars ⊆ Finset.range (netInDim net0)) ∧
        (∀ x : ℕ → ℚ, ∀ j < fs.length,
          (fs.getD j (.lit 0)).evalQ (fun _ x => x) x =
            netForward (fun _ x => x) (fun _ => 0) net0 x j)) :=
  ⟨by decide, symbolicFormula_correct (fun _ x => x) (fun _ => 0) net0 (by decide)⟩

/-! The remaining definitions are translated from the notebook source
`src/tutorials/Example_6_PDE.ipynb`: the `train()` function constructs one
LBFGS optimizer, then loops over `steps` iterations; in each iteration it
calls `model.update_grid_from_samples(x_i)` when `_ % 5 == 0 and _ < 50`,
and then calls `optimizer.step(closure)`. -/

/-- The notebook's `steps = 20`. -/
def steps : ℕ := 20

/-- The notebook's grid-adaptation guard `_ % 5 == 0 and _ < 50`. -/
def gridUpdateCond (s : ℕ) : Bool := s % 5 == 0 && decide (s < 50)

/-- The observable events of one `train()` call. -/
inductive TrainEvent where
  | constructOpt : TrainEvent
  | updateGrid : TrainEvent
  | optStep : TrainEvent
deriving DecidableEq

/-- The event trace of one `train()` call, translated from the notebook:
one optimizer construction before the loop, then per iteration an optional
grid update followed by an optimizer step. -/
def trainTrace : List TrainEvent :=
  TrainEvent.constructOpt ::
    (List.range steps).foldr
      (fun s acc =>
        (if gridUpdateCond s then [TrainEvent.updateGrid] else []) ++
          (TrainEvent.optStep :: acc)) []

/-- Optimizer-state simulation: the state counts (number of optimizer
constructions, steps accumulated in the optimizer's history since the last
construction or reset).  A grid update touches neither (the notebook's
`update_grid_from_samples` call does not reference the optimizer). -/
def optSim : ℕ × ℕ → TrainEvent → ℕ × ℕ
  | st, TrainEvent.constructOpt => (st.1 + 1, 0)
  | st, TrainEvent.updateGrid => st
  | st, TrainEvent.optStep => (st.1, st.2 + 1)

/-- The optimizer state after running a trace. -/
def optRun (tr : List TrainEvent) : ℕ × ℕ := tr.foldl optSim (0, 0)

/-- C8: during `train()`, grid adaptation runs exactly when the step index
satisfies `s % 5 = 0 ∧ s < 50` — every fifth step, only in an early window
— so it fires on steps 0, 5, 10 and 15: 4 times in the 20-step run, never
on every step. -/
theorem gridUpdate_periodic :
    ((List.range steps).filter fun s => gridUpdateCond s) = [0, 5, 10, 15] ∧
      (∀ s : ℕ, gridUpdateCond s = true ↔ (s % 5 = 0 ∧ s < 50)) ∧
      trainTrace.count TrainEvent.updateGrid = 4 ∧
      trainTrace.count TrainEvent.optStep = steps ∧
      trainTrace.count TrainEvent.updateGrid <
        trainTrace.count TrainEvent.optStep := by
  refine ⟨by decide, ?_, by decide, by decide, by decide⟩
  intro s
  simp [gridUpdateCond, Bool.and_eq_true, beq_iff_eq, decide_eq_true_eq]

/-- C10: one `train()` call constructs exactly one optimizer, as the very
first event (before the step loop); grid updates neither reconstruct the
optimizer nor reset its history, so after the full trace the simulated
state shows 1 construction and all 20 steps accumulated in one uninterrupted
history window spanning every grid-adaptation boundary. -/
theorem optimizer_single_construction :
    trainTrace.head? = some TrainEvent.constructOpt ∧
      trainTrace.count TrainEvent.constructOpt = 1 ∧
      (∀ st : ℕ × ℕ, optSim st TrainEvent.updateGrid = st) ∧
      optRun trainTrace = (1, steps) := by
  exact ⟨rfl, by decide, fun st => rfl, by decide⟩

end PyBan
